import Mathlib

/-!
Verification development for the code-review agent's prompt-packing and
response-reconciliation core.

JavaScript string primitives (split, join, trim, toLowerCase, startsWith,
slice) are modelled on `List Char`, so that every definition is executable
and kernel-reducible.  All separators used by the source are single
characters, so `split` is modelled by a single-character splitter.
-/

namespace CRAgent

/-- The JavaScript whitespace class used by `trim` and the regex class `\s`,
restricted to its ASCII members (the only characters occurring in this
development). -/
def isJsWhitespace (c : Char) : Bool :=
  c = ' ' || c = '\t' || c = '\n' || c = '\r' || c = '\x0b' || c = '\x0c'

/-- JavaScript `s.split(sep)` for a one-character separator, on `List Char`.
Always returns a non-empty list; `""` splits to `[""]`. -/
def splitOnChar (sep : Char) (cs : List Char) : List (List Char) :=
  cs.splitOn sep

/-- JavaScript `parts.join(sep)` for a one-character separator, on `List Char`. -/
def joinChar (sep : Char) (parts : List (List Char)) : List Char :=
  List.intercalate [sep] parts

/-- JavaScript `s.trim()` on `List Char`: drop the whitespace run at each end. -/
def jsTrimChars (cs : List Char) : List Char :=
  ((cs.dropWhile isJsWhitespace).reverse.dropWhile isJsWhitespace).reverse

/-- JavaScript `s.trim()`. -/
def jsTrim (s : String) : String :=
  String.mk (jsTrimChars s.data)

/-- JavaScript `s.toLowerCase()` (ASCII model). -/
def jsToLower (s : String) : String :=
  String.mk (s.data.map Char.toLower)

/-- JavaScript `s.split(sep)` for a one-character separator. -/
def jsSplit (sep : Char) (s : String) : List String :=
  (splitOnChar sep s.data).map String.mk

/-- JavaScript `parts.join(sep)` for a one-character separator. -/
def jsJoin (sep : Char) (parts : List String) : String :=
  String.mk (joinChar sep (parts.map String.data))

/-- JavaScript `line.startsWith("-")` on `List Char`. -/
def startsWithDash : List Char → Bool
  | '-' :: _ => true
  | _ => false

/-- JavaScript `Array.prototype.slice(s, e)` with number indices (negative
indices count from the end, ranges are clamped). -/
def jsSliceList {α : Type} (l : List α) (s e : Int) : List α :=
  let len : Int := l.length
  let s' : Int := if s < 0 then max (len + s) 0 else min s len
  let e' : Int := if e < 0 then max (len + e) 0 else min e len
  (l.drop s'.toNat).take (e' - s').toNat

/-! ## Data model (`constants.ts` shapes used by the reviewed core) -/

/-- A changed file of the pull request (the fields of `PRFile` the reviewed
core reads or writes). -/
structure PRFile where
  filename : String
  patch : String
  patchTokenLength : Nat
  old_contents : Option String
  current_contents : Option String
  deriving DecidableEq, Repr

/-- A structured review suggestion (the fields of `PRSuggestionImpl`). -/
structure PRSuggestion where
  describe : String
  type : String
  comment : String
  code : String
  filename : String
  deriving DecidableEq, Repr

/-- Modelled from the spec: `PRSuggestionImpl.identity` lives in
`data/PRSuggestionImpl.ts`, which is not among the analysed sources; the spec
defines identity as "a derived value combining filename+comment+code". -/
def PRSuggestion.identity (s : PRSuggestion) : String :=
  s.filename ++ "::" ++ s.comment ++ "::" ++ s.code

/-- An inline code fix (`CodeSuggestion` in `constants.ts`). -/
structure CodeSuggestion where
  file : String
  line_start : Int
  line_end : Int
  correction : String
  comment : String
  deriving DecidableEq, Repr

/-! ## File filter (`filterFile`) -/

/-- The fixed extension denylist of `filterFile`. -/
def extensionsToIgnore : List String :=
  ["pdf", "png", "jpg", "jpeg", "gif", "mp4", "mp3", "md", "json", "env",
   "toml", "svg", "ipynb", "wasm"]

/-- The fixed filename denylist of `filterFile`. -/
def filesToIgnore : List String :=
  ["package-lock.json", "yarn.lock", ".gitignore", "package.json",
   "tsconfig.json", "poetry.lock", "readme.md", "packages.txt", "utils.py",
   "requirements.txt", "tumor-classify.ipynb", "tree-sitter-python.wasm"]

/-- `filterFile`: decides whether a changed file is eligible for review. -/
def filterFile (file : PRFile) : Bool :=
  let lowered := jsToLower file.filename
  let baseName := (jsSplit '/' lowered).getLastD ""
  if baseName ≠ "" && filesToIgnore.contains baseName then false
  else
    let splitFilename := jsSplit '.' lowered
    if splitFilename.length ≤ 1 then false
    else
      let extension := jsToLower (splitFilename.getLastD "")
      if extension ≠ "" && extensionsToIgnore.contains extension then false
      else true

/-! ## Extension bucketing (`groupFilesByExtension`) -/

/-- The extension key computed at line 101 of the source:
`file.filename.split(".").pop()?.toLowerCase()`. -/
def fileExtension (file : PRFile) : String :=
  jsToLower ((jsSplit '.' file.filename).getLastD "")

/-- Appending a file to its extension bucket, preserving the JavaScript
`Map` key-insertion order (new keys are appended at the end). -/
def addToBucket : List (String × List PRFile) → String → PRFile →
    List (String × List PRFile)
  | [], k, f => [(k, [f])]
  | (k0, fs) :: rest, k, f =>
    if k0 = k then (k0, fs ++ [f]) :: rest
    else (k0, fs) :: addToBucket rest k f

/-- `groupFilesByExtension`: buckets files by their extension key, skipping
files whose extension key is the empty string (the `if (extension)` guard). -/
def groupFilesByExtension (files : List PRFile) : List (String × List PRFile) :=
  files.foldl
    (fun m f =>
      let e := fileExtension f
      if e = "" then m else addToBucket m e f)
    []

/-! ## Prompt packer

The conversation-limit probe of the source is
`isConversationWithinLimit(await constructPrompt(group, patchBuilder,
convoBuilder))`; `constructPrompt`, `isConversationWithinLimit` and
`getTokenLength` live in the `prompts` module, which is not among the
analysed sources.  The probe is a pure function of the file group (the spec
describes the token estimator as a pure function and the patch renderer as
deterministic), so the packer is parametrised over it as `fits`. -/

/-- The ascending comparison used by the greedy packer's sort
(`(a, b) => a.patchTokenLength - b.patchTokenLength`). -/
def tokenLE (a b : PRFile) : Prop :=
  a.patchTokenLength ≤ b.patchTokenLength

instance : DecidableRel tokenLE := fun a b =>
  inferInstanceAs (Decidable (a.patchTokenLength ≤ b.patchTokenLength))

instance : IsTotal PRFile tokenLE :=
  ⟨fun a b => Nat.le_total a.patchTokenLength b.patchTokenLength⟩

instance : IsTrans PRFile tokenLE :=
  ⟨fun _ _ _ h h' => Nat.le_trans h h'⟩

/-- The stable ascending sort by cached patch token length (JavaScript
`Array.prototype.sort` is stable). -/
def sortByTokenLength (files : List PRFile) : List PRFile :=
  files.insertionSort tokenLE

/-- The greedy accumulation loop of `processWithinLimitFiles` (lines
132-151): probe each file against the running group; on success add it, on
failure close the running group (if non-empty) and seed a new group with the
failing file; finally close the running group if non-empty. -/
def greedyGroupAccum (fits : List PRFile → Bool) :
    List PRFile → List PRFile → List (List PRFile)
  | currentGroup, [] => if currentGroup.isEmpty then [] else [currentGroup]
  | currentGroup, file :: rest =>
    if fits (currentGroup ++ [file]) then
      greedyGroupAccum fits (currentGroup ++ [file]) rest
    else if currentGroup.isEmpty then
      greedyGroupAccum fits [file] rest
    else
      currentGroup :: greedyGroupAccum fits [file] rest

/-- `processWithinLimitFiles`: whole set if it fits, otherwise per-extension
buckets, each taken whole if it fits and otherwise split greedily after a
stable ascending sort by patch token length. -/
def processWithinLimitFiles (fits : List PRFile → Bool) (files : List PRFile) :
    List (List PRFile) :=
  if fits files then [files]
  else
    ((groupFilesByExtension files).map fun entry =>
      if fits entry.2 then [entry.2]
      else greedyGroupAccum fits [] (sortByTokenLength entry.2)).flatten

/-- `stripRemovedLines` applied to the patch string: drop every line
starting with the removal marker. -/
def stripPatch (patch : String) : String :=
  String.mk (joinChar '\n'
    ((splitOnChar '\n' patch.data).filter (fun line => !startsWithDash line)))

/-- `stripRemovedLines`: a copy of the file whose patch has all removal
lines dropped. -/
def stripRemovedLines (file : PRFile) : PRFile :=
  { file with patch := stripPatch file.patch }

/-- `processOutsideLimitFiles`: strip removal lines from every file, take
the whole stripped set if it fits, otherwise route the individually-fitting
stripped files back through `processWithinLimitFiles` (still-exceeding files
are dropped with a logged notice). -/
def processOutsideLimitFiles (fits : List PRFile → Bool) (files : List PRFile) :
    List (List PRFile) :=
  if files.isEmpty then []
  else
    let stripped := files.map stripRemovedLines
    if fits stripped then [stripped]
    else
      let withinLimits := stripped.filter (fun f => fits [f])
      processWithinLimitFiles fits withinLimits

/-- The files dropped by Phase B step 5: the stripped files that still fail
the singleton probe, when the whole stripped set did not fit (the
`exceedingLimits` list of `processOutsideLimitFiles`). -/
def droppedOversizedFiles (fits : List PRFile → Bool) (files : List PRFile) :
    List PRFile :=
  if files.isEmpty then []
  else
    let stripped := files.map stripRemovedLines
    if fits stripped then []
    else stripped.filter (fun f => !fits [f])

/-- The packing portion of `reviewChanges` (lines 348-389): filter the
files, cache each patch token length, classify each file by the singleton
probe, and concatenate the Phase A groups with the Phase B groups. -/
def reviewChangesGroups (fits : List PRFile → Bool) (patchTokens : PRFile → Nat)
    (files : List PRFile) : List (List PRFile) :=
  let filteredFiles :=
    (files.filter filterFile).map fun f => { f with patchTokenLength := patchTokens f }
  let patchesWithinModelLimit := filteredFiles.filter (fun f => fits [f])
  let patchesOutsideModelLimit := filteredFiles.filter (fun f => !fits [f])
  processWithinLimitFiles fits patchesWithinModelLimit ++
    processOutsideLimitFiles fits patchesOutsideModelLimit

/-- The files dropped by a whole `reviewChanges` run (Phase B step 5 applied
to the files outside the model limit). -/
def reviewChangesDropped (fits : List PRFile → Bool) (patchTokens : PRFile → Nat)
    (files : List PRFile) : List PRFile :=
  let filteredFiles :=
    (files.filter filterFile).map fun f => { f with patchTokenLength := patchTokens f }
  droppedOversizedFiles fits (filteredFiles.filter (fun f => !fits [f]))

/-! ## Retry orchestration (`reviewChangesRetry`)

`reviewChanges` ends in model calls and response building; its effectful run
for one strategy is abstracted as `runStrategy files strategy`, an `Except`
value (an exception anywhere in packing, the group model calls or response
building is an `Except.error`). -/

/-- `reviewChangesRetry`: try each (convoBuilder, responseBuilder) strategy
in order on the same files, returning the first successful result; throw the
aggregate error when every strategy fails. -/
def reviewChangesRetry {σ ρ : Type} (files : List PRFile)
    (runStrategy : List PRFile → σ → Except String ρ) :
    List σ → Except String ρ
  | [] => Except.error "All convoBuilders failed."
  | b :: rest =>
    match runStrategy files b with
    | Except.ok r => Except.ok r
    | Except.error _ => reviewChangesRetry files runStrategy rest

/-! ## Response reconciliation -/

/-- JavaScript `Map.prototype.set` on an insertion-ordered association list:
an existing key keeps its position and gets the new value, a new key is
appended at the end. -/
def mapSet : List (String × PRSuggestion) → String → PRSuggestion →
    List (String × PRSuggestion)
  | [], k, v => [(k, v)]
  | (k0, v0) :: rest, k, v =>
    if k0 = k then (k0, v) :: rest
    else (k0, v0) :: mapSet rest k v

/-- `dedupSuggestions`: build a map keyed by each suggestion's identity
(later entries overwrite earlier ones) and emit the values in key-insertion
order. -/
def dedupSuggestions (suggestions : List PRSuggestion) : List PRSuggestion :=
  (suggestions.foldl (fun m s => mapSet m s.identity s) []).map Prod.snd

/-- Trimming of the first line performed by `processXMLSuggestions`
(`lines[0] = lines[0].trim()`). -/
def trimFirstLine : List (List Char) → List (List Char)
  | [] => []
  | l :: rest => jsTrimChars l :: rest

/-- Trimming of the last line performed by `processXMLSuggestions`
(`lines[lines.length - 1] = lines[lines.length - 1].trim()`). -/
def trimLastLine (lines : List (List Char)) : List (List Char) :=
  (trimFirstLine lines.reverse).reverse

/-- The code-block conversion of `processXMLSuggestions` (lines 233-236):
trim the whole block, split into lines, trim the first and the last line,
rejoin. -/
def convertSuggestionCode (code : String) : String :=
  String.mk (joinChar '\n'
    (trimLastLine (trimFirstLine (splitOnChar '\n' (jsTrimChars code.data)))))

/-- A raw parsed suggestion record as produced by the XML parser (one
`<suggestion>` element, each field already extracted from its
single-element array). -/
structure RawSuggestion where
  describe : String
  type : String
  comment : String
  code : String
  filename : String
  deriving DecidableEq, Repr

/-- The conversion of one raw record into a `PRSuggestion` performed inside
`processXMLSuggestions` (lines 232-244). -/
def rawToPRSuggestion (raw : RawSuggestion) : PRSuggestion :=
  { describe := raw.describe
    type := raw.type
    comment := raw.comment
    code := convertSuggestionCode raw.code
    filename := raw.filename }

/-! ## Inline-fix generation -/

/-- The parsed arguments of the constrained `INLINE_FIX_FUNCTION` call. -/
structure InlineFixArgs where
  code : String
  lineStart : Int
  lineEnd : Int
  comment : String
  deriving DecidableEq, Repr

/-- `indentCodeFix`: copy the leading whitespace run of line `lineStart` of
the file onto every line of the replacement code.  When `lineStart` does not
address a line, the source reads `undefined` and `.match` throws; this is
modelled as the error case. -/
def indentCodeFix (fileContents code : String) (lineStart : Int) :
    Except String String :=
  let fileLines := jsSplit '\n' fileContents
  if 1 ≤ lineStart ∧ (lineStart - 1).toNat < fileLines.length then
    let firstLine := fileLines.getD (lineStart - 1).toNat ""
    let indentation := String.mk (firstLine.data.takeWhile isJsWhitespace)
    let codeLines := jsSplit '\n' code
    Except.ok (jsJoin '\n' (codeLines.map (fun line => indentation ++ line)))
  else Except.error "TypeError: undefined line"

/-- `isCodeSuggestionNew`: the fix is new unless the trimmed existing text
spanning `[line_start, line_end]` equals the trimmed correction. -/
def isCodeSuggestionNew (contents : String) (suggestion : CodeSuggestion) :
    Bool :=
  let fileLines := jsSplit '\n' contents
  let targetLines :=
    jsJoin '\n' (jsSliceList fileLines (suggestion.line_start - 1) suggestion.line_end)
  if jsTrim targetLines = jsTrim suggestion.correction then false else true

/-- The body of the `try` block of `generateInlineComments`.  The model call
is abstracted as `chatResult` (its `function_call` field, or an error), and
`JSON.parse` of the arguments as `parseArgs`; every failure point of the
source (model failure, absent function call, argument parsing, null file
contents, out-of-range re-indentation) is an `Except.error`. -/
def generateInlineCommentsBody (chatResult : Except String (Option String))
    (parseArgs : String → Except String InlineFixArgs)
    (suggestion : PRSuggestion) (file : PRFile) :
    Except String (Option CodeSuggestion) :=
  match chatResult with
  | Except.error e => Except.error e
  | Except.ok none => Except.error "No function call found"
  | Except.ok (some rawArgs) =>
    match parseArgs rawArgs with
    | Except.error e => Except.error e
    | Except.ok args =>
      match file.current_contents with
      | none => Except.error "TypeError: null contents"
      | some contents =>
        match indentCodeFix contents args.code args.lineStart with
        | Except.error e => Except.error e
        | Except.ok indentedCode =>
          let codeFix : CodeSuggestion :=
            { file := suggestion.filename
              line_start := args.lineStart
              line_end := args.lineEnd
              correction := indentedCode
              comment := args.comment }
          if isCodeSuggestionNew contents codeFix then Except.ok (some codeFix)
          else Except.ok none

/-- `generateInlineComments`: the body wrapped in the catch-all that turns
any exception into a null ("no fix produced") result. -/
def generateInlineComments (chatResult : Except String (Option String))
    (parseArgs : String → Except String InlineFixArgs)
    (suggestion : PRSuggestion) (file : PRFile) : Option CodeSuggestion :=
  match generateInlineCommentsBody chatResult parseArgs suggestion file with
  | Except.ok v => v
  | Except.error _ => none

/-! ## Concrete instances used by examples and witnesses -/

/-- Modelled from the spec: the token estimator (`getTokenLength` and
`isConversationWithinLimit` of the `prompts` module, not among the analysed
sources) "returns an integer cost" of a conversation; this concrete instance
charges one unit per patch character plus a fixed scaffolding cost, against a
budget of twelve units. -/
def fitsPairBudget (g : List PRFile) : Bool :=
  (g.map (fun f => f.patch.length)).sum + 2 ≤ 12

/-- Modelled from the spec: a concrete conversation-limit probe charging the
cached patch token length of each file plus a scaffolding cost of three,
against a budget of fifteen units (so two length-5 patches fit together but
the length-10 patch fits only alone). -/
def fitsSmallBudget (g : List PRFile) : Bool :=
  (g.map (fun f => f.patchTokenLength)).sum + 3 ≤ 15

/-- Example file with a five-token patch. -/
def exampleFileA : PRFile := ⟨"a.ts", "aaaaa", 5, none, none⟩

/-- Second example file with a five-token patch. -/
def exampleFileB : PRFile := ⟨"b.ts", "bbbbb", 5, none, none⟩

/-- Example file with a ten-token patch. -/
def exampleFileC : PRFile := ⟨"c.ts", "cccccccccc", 10, none, none⟩

/-- Example file with an ordinary extension and an eight-character patch. -/
def exampleFileD : PRFile := ⟨"a.ts", "aaaaaaaa", 0, none, none⟩

/-- Example file whose name ends in a dot: its extension key is the empty
string, yet `filterFile` accepts it. -/
def exampleFileDot : PRFile := ⟨"foo.", "bbbbbbbb", 0, none, none⟩

/-- Example Python file carrying the spec's inline-fix novelty example as its
current contents. -/
def exampleFilePy : PRFile :=
  ⟨"f.py", "", 0, none, some "def f():\n    pass\n"⟩

/-- Example suggestion record used by the inline-fix witnesses. -/
def exampleSuggestion : PRSuggestion :=
  ⟨"desc", "bug", "use pass", "pass", "f.py"⟩

/-! ## General lemmas about the string model -/

theorem splitOnChar_ne_nil (sep : Char) (cs : List Char) : splitOnChar sep cs ≠ [] :=
  List.splitOnP_ne_nil _ cs

theorem sep_not_mem_of_mem_splitOnChar (sep : Char) (cs : List Char) :
    ∀ l ∈ splitOnChar sep cs, sep ∉ l := by
  induction cs with
  | nil =>
    intro l hl
    simp only [splitOnChar, List.splitOn, List.splitOnP_nil, List.mem_singleton] at hl
    simp [hl]
  | cons c cs ih =>
    intro l hl
    simp only [splitOnChar, List.splitOn, List.splitOnP_cons] at hl ih
    by_cases hc : c = sep
    · rw [if_pos (by simp [hc])] at hl
      rcases List.mem_cons.mp hl with h | h
      · simp [h]
      · exact ih l h
    · rw [if_neg (by simp [hc])] at hl
      cases hsplit : List.splitOnP (· == sep) cs with
      | nil => exact absurd hsplit (List.splitOnP_ne_nil _ cs)
      | cons m ms =>
        rw [hsplit] at hl
        simp only [List.modifyHead] at hl
        rcases List.mem_cons.mp hl with h1 | h1
        · subst h1
          intro hmem
          rcases List.mem_cons.mp hmem with h2 | h2
          · exact hc h2.symm
          · exact ih m (by rw [hsplit]; exact List.mem_cons_self _ _) h2
        · exact ih l (by rw [hsplit]; exact List.mem_cons_of_mem _ h1)

theorem splitOnChar_joinChar (sep : Char) (ls : List (List Char))
    (h : ∀ l ∈ ls, sep ∉ l) (hne : ls ≠ []) :
    splitOnChar sep (joinChar sep ls) = ls := by
  unfold splitOnChar joinChar
  exact List.splitOn_intercalate ls sep h hne

theorem joinChar_splitOnChar (sep : Char) (cs : List Char) :
    joinChar sep (splitOnChar sep cs) = cs := by
  unfold splitOnChar joinChar
  exact List.intercalate_splitOn cs sep

/-! ## C9: the strip-removed-lines transform -/

theorem stripPatch_lines (p : String)
    (hne : (splitOnChar '\n' p.data).filter (fun line => !startsWithDash line) ≠ []) :
    splitOnChar '\n' (stripPatch p).data =
      (splitOnChar '\n' p.data).filter (fun line => !startsWithDash line) := by
  show splitOnChar '\n' (joinChar '\n' _) = _
  apply splitOnChar_joinChar
  · intro l hl
    exact sep_not_mem_of_mem_splitOnChar '\n' p.data l (List.mem_of_mem_filter hl)
  · exact hne

theorem stripPatch_idem (p : String) : stripPatch (stripPatch p) = stripPatch p := by
  by_cases hne : (splitOnChar '\n' p.data).filter (fun line => !startsWithDash line) = []
  · have h1 : stripPatch p = "" := by
      show String.mk (joinChar '\n' _) = ""
      rw [hne]; rfl
    rw [h1]; rfl
  · show String.mk
      (joinChar '\n' ((splitOnChar '\n' (stripPatch p).data).filter
        (fun line => !startsWithDash line))) = _
    rw [stripPatch_lines p hne, List.filter_filter]
    have heq : (fun line => !startsWithDash line && !startsWithDash line) =
        (fun line : List Char => !startsWithDash line) := by
      funext l; exact Bool.and_self _
    rw [heq]
    rfl

/-- C9: `stripRemovedLines` removes exactly the lines beginning with the
removal marker and leaves all other lines unchanged (the patch
`"+a\n-b\n c\n"` transforms to `"+a\n c\n"`), and the transformation is
idempotent. -/
theorem stripRemovedLines_spec :
    stripPatch "+a\n-b\n c\n" = "+a\n c\n" ∧
    (∀ p : String, stripPatch (stripPatch p) = stripPatch p) ∧
    (∀ f : PRFile, stripRemovedLines (stripRemovedLines f) = stripRemovedLines f) ∧
    (∀ p : String,
      (splitOnChar '\n' p.data).filter (fun line => !startsWithDash line) ≠ [] →
      splitOnChar '\n' (stripPatch p).data =
        (splitOnChar '\n' p.data).filter (fun line => !startsWithDash line)) := by
  refine ⟨by decide, stripPatch_idem, ?_, stripPatch_lines⟩
  intro f
  show ({ f with patch := stripPatch (stripPatch f.patch) } : PRFile) = _
  rw [stripPatch_idem]
  rfl

/-- Witness for C9 at the spec's concrete patch. -/
theorem stripRemovedLines_spec_witness :
    splitOnChar '\n' (stripPatch "+a\n-b\n c\n").data =
      (splitOnChar '\n' ("+a\n-b\n c\n" : String).data).filter
        (fun line => !startsWithDash line) :=
  stripRemovedLines_spec.2.2.2 "+a\n-b\n c\n" (by decide)

/-! ## C5: the file filter -/

/-- C5: `filterFile` rejects a file exactly when its lowercased, path-stripped
name is in the filename denylist, or its lowercased filename has no dot
(no extension), or its lowercased extension is in the extension denylist;
in particular `"package-lock.json"` is rejected, `"main.rs"` is accepted and
`"README"` is rejected. -/
theorem filterFile_spec :
    (∀ f : PRFile,
      filterFile f = false ↔
        (filesToIgnore.contains ((jsSplit '/' (jsToLower f.filename)).getLastD "") = true ∨
         (jsSplit '.' (jsToLower f.filename)).length ≤ 1 ∨
         extensionsToIgnore.contains
           (jsToLower ((jsSplit '.' (jsToLower f.filename)).getLastD "")) = true)) ∧
    filterFile ⟨"package-lock.json", "", 0, none, none⟩ = false ∧
    filterFile ⟨"main.rs", "", 0, none, none⟩ = true ∧
    filterFile ⟨"README", "", 0, none, none⟩ = false := by
  refine ⟨?_, by decide, by decide, by decide⟩
  intro f
  unfold filterFile
  dsimp only
  split_ifs with h1 h2 h3
  · exact iff_of_true rfl (Or.inl ((Bool.and_eq_true _ _).mp h1).2)
  · exact iff_of_true rfl (Or.inr (Or.inl h2))
  · exact iff_of_true rfl (Or.inr (Or.inr ((Bool.and_eq_true _ _).mp h3).2))
  · refine iff_of_false (by decide) ?_
    rintro (hmem | hlen | hmem)
    · by_cases hb : (jsSplit '/' (jsToLower f.filename)).getLastD "" = ""
      · rw [hb] at hmem
        exact absurd hmem (by decide)
      · exact h1 ((Bool.and_eq_true _ _).mpr ⟨decide_eq_true hb, hmem⟩)
    · exact h2 hlen
    · by_cases hb : jsToLower ((jsSplit '.' (jsToLower f.filename)).getLastD "") = ""
      · rw [hb] at hmem
        exact absurd hmem (by decide)
      · exact h3 ((Bool.and_eq_true _ _).mpr ⟨decide_eq_true hb, hmem⟩)

/-! ## C3: retry orchestration -/

/-- C3: `reviewChangesRetry` returns the result of the first strategy whose
run does not throw (every earlier strategy having thrown), and throws the
aggregate error when every strategy throws. -/
theorem reviewChangesRetry_spec :
    (∀ (σ ρ : Type) (files : List PRFile)
       (runStrategy : List PRFile → σ → Except String ρ)
       (pre : List σ) (s : σ) (post : List σ) (r : ρ),
       (∀ t ∈ pre, ∃ e, runStrategy files t = Except.error e) →
       runStrategy files s = Except.ok r →
       reviewChangesRetry files runStrategy (pre ++ s :: post) = Except.ok r) ∧
    (∀ (σ ρ : Type) (files : List PRFile)
       (runStrategy : List PRFile → σ → Except String ρ) (builders : List σ),
       (∀ t ∈ builders, ∃ e, runStrategy files t = Except.error e) →
       reviewChangesRetry files runStrategy builders =
         (Except.error "All convoBuilders failed." : Except String ρ)) := by
  constructor
  · intro σ ρ files runStrategy pre
    induction pre with
    | nil =>
      intro s post r _ hs
      show reviewChangesRetry files runStrategy (s :: post) = _
      unfold reviewChangesRetry
      rw [hs]
    | cons t pre ih =>
      intro s post r hpre hs
      obtain ⟨e, he⟩ := hpre t (List.mem_cons_self _ _)
      show reviewChangesRetry files runStrategy (t :: (pre ++ s :: post)) = _
      unfold reviewChangesRetry
      rw [he]
      exact ih s post r (fun u hu => hpre u (List.mem_cons_of_mem _ hu)) hs
  · intro σ ρ files runStrategy builders
    induction builders with
    | nil => intro _; rfl
    | cons t rest ih =>
      intro h
      obtain ⟨e, he⟩ := h t (List.mem_cons_self _ _)
      unfold reviewChangesRetry
      rw [he]
      exact ih (fun u hu => h u (List.mem_cons_of_mem _ hu))

/-- Witness for C3: with two concrete strategies of which the first throws,
the retry loop returns the second strategy's result; with both throwing, it
throws the aggregate error. -/
theorem reviewChangesRetry_spec_witness :
    reviewChangesRetry []
        (fun _ n => if n = 0 then Except.error "parse failure" else Except.ok n)
        ([0] ++ 1 :: []) = Except.ok 1 ∧
    reviewChangesRetry []
        (fun _ (_ : Nat) => (Except.error "parse failure" : Except String Nat))
        [0, 1] = Except.error "All convoBuilders failed." :=
  ⟨reviewChangesRetry_spec.1 Nat Nat []
      (fun _ n => if n = 0 then Except.error "parse failure" else Except.ok n)
      [0] 1 [] 1
      (by intro t ht; exact ⟨"parse failure", by simp at ht; subst ht; rfl⟩)
      (by rfl),
   reviewChangesRetry_spec.2 Nat Nat []
      (fun _ _ => Except.error "parse failure") [0, 1]
      (by intro t _; exact ⟨"parse failure", rfl⟩)⟩

/-! ## C4: deduplication -/

theorem mapSet_of_not_mem_keys {m : List (String × PRSuggestion)} {k : String}
    {v : PRSuggestion} (h : k ∉ m.map Prod.fst) :
    mapSet m k v = m ++ [(k, v)] := by
  induction m with
  | nil => rfl
  | cons kv m ih =>
    obtain ⟨k0, v0⟩ := kv
    simp only [List.map_cons, List.mem_cons] at h
    push_neg at h
    simp only [mapSet]
    rw [if_neg (fun he => h.1 he.symm), ih h.2]
    rfl

theorem keys_mapSet (m : List (String × PRSuggestion)) (k : String)
    (v : PRSuggestion) :
    (mapSet m k v).map Prod.fst =
      if k ∈ m.map Prod.fst then m.map Prod.fst else m.map Prod.fst ++ [k] := by
  induction m with
  | nil => simp [mapSet]
  | cons kv m ih =>
    obtain ⟨k0, v0⟩ := kv
    simp only [mapSet]
    by_cases hk : k0 = k
    · subst hk
      simp
    · rw [if_neg hk]
      simp only [List.map_cons]
      rw [ih]
      by_cases hmem : k ∈ m.map Prod.fst
      · simp [hmem]
      · rw [if_neg hmem]
        have hne : k ∉ (k0 :: m.map Prod.fst) := by
          simp only [List.mem_cons]
          rintro (h | h)
          · exact hk h.symm
          · exact hmem h
        rw [if_neg hne]
        rfl

theorem mem_keys_mapSet (m : List (String × PRSuggestion)) (k k' : String)
    (v : PRSuggestion) :
    k' ∈ (mapSet m k v).map Prod.fst ↔ k' ∈ m.map Prod.fst ∨ k' = k := by
  rw [keys_mapSet]
  by_cases hmem : k ∈ m.map Prod.fst
  · rw [if_pos hmem]
    constructor
    · exact Or.inl
    · rintro (h | h)
      · exact h
      · rw [h]; exact hmem
  · rw [if_neg hmem]
    simp

theorem wf_mapSet {m : List (String × PRSuggestion)} {s : PRSuggestion}
    (h : ∀ kv ∈ m, kv.2.identity = kv.1) :
    ∀ kv ∈ mapSet m s.identity s, kv.2.identity = kv.1 := by
  induction m with
  | nil =>
    intro kv hkv
    simp only [mapSet, List.mem_singleton] at hkv
    rw [hkv]
  | cons kv0 m ih =>
    obtain ⟨k0, v0⟩ := kv0
    intro kv hkv
    simp only [mapSet] at hkv
    by_cases hk : k0 = s.identity
    · rw [if_pos hk] at hkv
      rcases List.mem_cons.mp hkv with h1 | h1
      · rw [h1, hk]
      · exact h kv (List.mem_cons_of_mem _ h1)
    · rw [if_neg hk] at hkv
      rcases List.mem_cons.mp hkv with h1 | h1
      · rw [h1]; exact h (k0, v0) (List.mem_cons_self _ _)
      · exact ih (fun u hu => h u (List.mem_cons_of_mem _ hu)) kv h1

theorem nodup_keys_mapSet {m : List (String × PRSuggestion)} {k : String}
    {v : PRSuggestion} (h : (m.map Prod.fst).Nodup) :
    ((mapSet m k v).map Prod.fst).Nodup := by
  rw [keys_mapSet]
  by_cases hmem : k ∈ m.map Prod.fst
  · rw [if_pos hmem]; exact h
  · rw [if_neg hmem]
    rw [List.nodup_append]
    exact ⟨h, List.nodup_singleton k, by simpa using hmem⟩

theorem wf_dedupAux (l : List PRSuggestion)
    (acc : List (String × PRSuggestion))
    (hacc : ∀ kv ∈ acc, kv.2.identity = kv.1) :
    ∀ kv ∈ l.foldl (fun m s => mapSet m s.identity s) acc,
      kv.2.identity = kv.1 := by
  induction l generalizing acc with
  | nil => exact hacc
  | cons s l ih =>
    simp only [List.foldl_cons]
    exact ih (mapSet (acc) s.identity s) (wf_mapSet hacc)

theorem nodup_keys_dedupAux (l : List PRSuggestion)
    (acc : List (String × PRSuggestion)) (hacc : (acc.map Prod.fst).Nodup) :
    ((l.foldl (fun m s => mapSet m s.identity s) acc).map Prod.fst).Nodup := by
  induction l generalizing acc with
  | nil => exact hacc
  | cons s l ih =>
    simp only [List.foldl_cons]
    exact ih _ (nodup_keys_mapSet hacc)

theorem mem_keys_dedupAux (l : List PRSuggestion)
    (acc : List (String × PRSuggestion)) (k : String) :
    k ∈ (l.foldl (fun m s => mapSet m s.identity s) acc).map Prod.fst ↔
      k ∈ acc.map Prod.fst ∨ k ∈ l.map PRSuggestion.identity := by
  induction l generalizing acc with
  | nil => simp
  | cons s l ih =>
    simp only [List.foldl_cons, List.map_cons, List.mem_cons]
    rw [ih, mem_keys_mapSet]
    tauto

theorem dedupSuggestions_map_identity (l : List PRSuggestion) :
    (dedupSuggestions l).map PRSuggestion.identity =
      (l.foldl (fun m s => mapSet m s.identity s) []).map Prod.fst := by
  unfold dedupSuggestions
  rw [List.map_map]
  exact List.map_congr_left (fun kv hkv => wf_dedupAux l [] (by simp) kv hkv)

theorem dedupSuggestions_nodup (l : List PRSuggestion) :
    ((dedupSuggestions l).map PRSuggestion.identity).Nodup := by
  rw [dedupSuggestions_map_identity]
  exact nodup_keys_dedupAux l [] (by simp)

theorem dedupAux_of_nodup (l : List PRSuggestion)
    (acc : List (String × PRSuggestion))
    (hdisj : ∀ s ∈ l, s.identity ∉ acc.map Prod.fst)
    (hnodup : (l.map PRSuggestion.identity).Nodup) :
    l.foldl (fun m s => mapSet m s.identity s) acc =
      acc ++ l.map (fun s => (s.identity, s)) := by
  induction l generalizing acc with
  | nil => simp
  | cons s l ih =>
    simp only [List.foldl_cons]
    rw [mapSet_of_not_mem_keys (hdisj s (List.mem_cons_self _ _)),
      ih (acc ++ [(s.identity, s)])]
    · simp
    · intro t ht
      simp only [List.map_append, List.mem_append, List.map_cons]
      rintro (h | h)
      · exact hdisj t (List.mem_cons_of_mem _ ht) h
      · simp only [List.map_cons, List.map_nil, List.mem_singleton] at h
        have := (List.nodup_cons.mp hnodup).1
        exact this (h ▸ List.mem_map_of_mem PRSuggestion.identity ht)
    · exact (List.nodup_cons.mp hnodup).2

theorem dedupSuggestions_idem (l : List PRSuggestion) :
    dedupSuggestions (dedupSuggestions l) = dedupSuggestions l := by
  have hnodup := dedupSuggestions_nodup l
  show ((dedupSuggestions l).foldl (fun m s => mapSet m s.identity s) []).map
      Prod.snd = dedupSuggestions l
  rw [dedupAux_of_nodup (dedupSuggestions l) [] (by simp) hnodup]
  rw [List.nil_append, List.map_map]
  have hcomp : (Prod.snd ∘ fun s : PRSuggestion => (s.identity, s)) = id := rfl
  rw [hcomp, List.map_id]

theorem mem_snd_mapSet {m : List (String × PRSuggestion)} {k : String}
    {v s : PRSuggestion} (h : s ∈ (mapSet m k v).map Prod.snd) :
    s = v ∨ s ∈ m.map Prod.snd := by
  induction m with
  | nil =>
    simp only [mapSet, List.map_cons, List.map_nil, List.mem_singleton] at h
    exact Or.inl h
  | cons kv0 m ih =>
    obtain ⟨k0, v0⟩ := kv0
    simp only [mapSet] at h
    by_cases hk : k0 = k
    · rw [if_pos hk] at h
      rcases List.mem_cons.mp h with h1 | h1
      · exact Or.inl h1
      · exact Or.inr (List.mem_cons_of_mem _ h1)
    · rw [if_neg hk] at h
      rcases List.mem_cons.mp h with h1 | h1
      · exact Or.inr (by rw [h1]; exact List.mem_map_of_mem Prod.snd (List.mem_cons_self _ _))
      · rcases ih h1 with h2 | h2
        · exact Or.inl h2
        · exact Or.inr (List.mem_cons_of_mem _ h2)

theorem entry_mapSet_self {m : List (String × PRSuggestion)} {k : String}
    {v w : PRSuggestion} (hnodup : (m.map Prod.fst).Nodup)
    (h : (k, w) ∈ mapSet m k v) : w = v := by
  induction m with
  | nil =>
    simp only [mapSet, List.mem_singleton, Prod.mk.injEq] at h
    exact h.2
  | cons kv0 m ih =>
    obtain ⟨k0, v0⟩ := kv0
    simp only [List.map_cons, List.nodup_cons] at hnodup
    simp only [mapSet] at h
    by_cases hk : k0 = k
    · rw [if_pos hk] at h
      rcases List.mem_cons.mp h with h1 | h1
      · rw [Prod.mk.injEq] at h1
        exact h1.2
      · exfalso
        apply hnodup.1
        rw [hk]
        exact List.mem_map_of_mem Prod.fst h1
    · rw [if_neg hk] at h
      rcases List.mem_cons.mp h with h1 | h1
      · rw [Prod.mk.injEq] at h1
        exact absurd h1.1.symm hk
      · exact ih hnodup.2 h1

theorem mem_snd_with_key {m : List (String × PRSuggestion)} {s : PRSuggestion}
    (hwf : ∀ kv ∈ m, kv.2.identity = kv.1) (h : s ∈ m.map Prod.snd) :
    (s.identity, s) ∈ m := by
  rcases List.mem_map.mp h with ⟨⟨k, v⟩, hkv, hsnd⟩
  dsimp only at hsnd
  have hid : v.identity = k := hwf (k, v) hkv
  rw [← hsnd, hid]
  exact hkv

theorem dedupSuggestions_last_wins (l : List PRSuggestion) :
    ∀ s ∈ dedupSuggestions l,
      l.reverse.find? (fun t => t.identity == s.identity) = some s := by
  induction l using List.reverseRecOn with
  | nil => intro s hs; simp [dedupSuggestions, mapSet] at hs
  | append_singleton l x ih =>
    intro s hs
    have hfold : dedupSuggestions (l ++ [x]) =
        (mapSet (l.foldl (fun m t => mapSet m t.identity t) []) x.identity x).map
          Prod.snd := by
      unfold dedupSuggestions
      rw [List.foldl_append]
      rfl
    rw [hfold] at hs
    rw [List.reverse_append]
    simp only [List.reverse_singleton, List.singleton_append]
    by_cases hid : x.identity = s.identity
    · have hwf : ∀ kv ∈ mapSet (l.foldl (fun m t => mapSet m t.identity t) [])
          x.identity x, kv.2.identity = kv.1 :=
        wf_mapSet (wf_dedupAux l [] (by simp))
      have hk : (s.identity, s) ∈
          mapSet (l.foldl (fun m t => mapSet m t.identity t) []) x.identity x :=
        mem_snd_with_key hwf hs
      rw [← hid] at hk
      have hx : s = x :=
        entry_mapSet_self (nodup_keys_dedupAux l [] (by simp)) hk
      rw [List.find?_cons_of_pos _ (by simp [hid])]
      rw [hx]
    · rcases mem_snd_mapSet hs with h1 | h1
      · exact absurd (by rw [h1] : x.identity = s.identity) hid
      · rw [List.find?_cons_of_neg _ (by simp [hid])]
        exact ih s h1

/-- C4: `dedupSuggestions` is idempotent, its output has pairwise-distinct
identities while covering every input identity (so suggestions with equal
filename, comment and code collapse to one entry), and each surviving entry
is the last input occurrence with its identity. -/
theorem dedupSuggestions_spec :
    (∀ l, dedupSuggestions (dedupSuggestions l) = dedupSuggestions l) ∧
    (∀ l, ((dedupSuggestions l).map PRSuggestion.identity).Nodup) ∧
    (∀ l, ∀ t ∈ l,
      t.identity ∈ (dedupSuggestions l).map PRSuggestion.identity) ∧
    (∀ l, ∀ s ∈ dedupSuggestions l,
      l.reverse.find? (fun t => t.identity == s.identity) = some s) := by
  refine ⟨dedupSuggestions_idem, dedupSuggestions_nodup, ?_,
    dedupSuggestions_last_wins⟩
  intro l t ht
  rw [dedupSuggestions_map_identity, mem_keys_dedupAux]
  exact Or.inr (List.mem_map_of_mem PRSuggestion.identity ht)

/-- Witness for C4 at two concrete suggestions sharing an identity: the
second occurrence survives. -/
theorem dedupSuggestions_spec_witness :
    ([(⟨"d1", "t", "c", "x", "f"⟩ : PRSuggestion),
      (⟨"d2", "t", "c", "x", "f"⟩ : PRSuggestion)].reverse.find?
        (fun t => t.identity == (⟨"d2", "t", "c", "x", "f"⟩ : PRSuggestion).identity)) =
      some ⟨"d2", "t", "c", "x", "f"⟩ :=
  dedupSuggestions_spec.2.2.2
    [⟨"d1", "t", "c", "x", "f"⟩, ⟨"d2", "t", "c", "x", "f"⟩]
    ⟨"d2", "t", "c", "x", "f"⟩ (by decide)

/-! ## Packer lemmas -/

theorem flatten_greedyGroupAccum (fits : List PRFile → Bool) :
    ∀ (rest currentGroup : List PRFile),
      (greedyGroupAccum fits currentGroup rest).flatten = currentGroup ++ rest := by
  intro rest
  induction rest with
  | nil =>
    intro cur
    simp only [greedyGroupAccum]
    by_cases h : cur.isEmpty = true
    · rw [if_pos h, List.isEmpty_iff.mp h]
      rfl
    · rw [if_neg h]
      simp
  | cons f rest ih =>
    intro cur
    simp only [greedyGroupAccum]
    by_cases h1 : fits (cur ++ [f]) = true
    · rw [if_pos h1, ih]
      simp
    · rw [if_neg h1]
      by_cases h2 : cur.isEmpty = true
      · rw [if_pos h2, ih, List.isEmpty_iff.mp h2]
        rfl
      · rw [if_neg h2]
        simp only [List.flatten_cons]
        rw [ih]
        simp

theorem fits_greedyGroupAccum (fits : List PRFile → Bool) :
    ∀ (rest currentGroup : List PRFile),
      (currentGroup = [] ∨ fits currentGroup = true) →
      (∀ f ∈ rest, fits [f] = true) →
      ∀ g ∈ greedyGroupAccum fits currentGroup rest, fits g = true := by
  intro rest
  induction rest with
  | nil =>
    intro cur hcur _ g hg
    simp only [greedyGroupAccum] at hg
    by_cases h : cur.isEmpty = true
    · rw [if_pos h] at hg
      simp at hg
    · rw [if_neg h] at hg
      simp only [List.mem_singleton] at hg
      subst hg
      rcases hcur with h1 | h1
      · rw [h1] at h
        simp at h
      · exact h1
  | cons f rest ih =>
    intro cur hcur hall g hg
    simp only [greedyGroupAccum] at hg
    by_cases h1 : fits (cur ++ [f]) = true
    · rw [if_pos h1] at hg
      exact ih _ (Or.inr h1) (fun u hu => hall u (List.mem_cons_of_mem _ hu)) g hg
    · rw [if_neg h1] at hg
      by_cases h2 : cur.isEmpty = true
      · rw [if_pos h2] at hg
        exact ih _ (Or.inr (hall f (List.mem_cons_self _ _)))
          (fun u hu => hall u (List.mem_cons_of_mem _ hu)) g hg
      · rw [if_neg h2] at hg
        rcases List.mem_cons.mp hg with h3 | h3
        · subst h3
          rcases hcur with h4 | h4
          · rw [h4] at h2
            simp at h2
          · exact h4
        · exact ih _ (Or.inr (hall f (List.mem_cons_self _ _)))
            (fun u hu => hall u (List.mem_cons_of_mem _ hu)) g h3

theorem flatten_addToBucket (m : List (String × List PRFile)) (k : String)
    (f : PRFile) :
    List.Perm ((addToBucket m k f).map Prod.snd).flatten
      ((m.map Prod.snd).flatten ++ [f]) := by
  induction m with
  | nil => simp [addToBucket]
  | cons e m ih =>
    obtain ⟨k0, fs⟩ := e
    simp only [addToBucket]
    by_cases hk : k0 = k
    · rw [if_pos hk]
      simp only [List.map_cons, List.flatten_cons]
      rw [List.append_assoc, List.append_assoc]
      exact List.Perm.append_left fs (List.perm_append_comm)
    · rw [if_neg hk]
      simp only [List.map_cons, List.flatten_cons]
      refine (List.Perm.append_left fs ih).trans ?_
      rw [List.append_assoc]

theorem flatten_bucketFold (files : List PRFile) (acc : List (String × List PRFile)) :
    ((files.foldl
        (fun m f =>
          let e := fileExtension f
          if e = "" then m else addToBucket m e f) acc).map Prod.snd).flatten.Perm
      ((acc.map Prod.snd).flatten ++
        files.filter (fun f => decide (fileExtension f ≠ ""))) := by
  induction files generalizing acc with
  | nil => simp
  | cons f files ih =>
    simp only [List.foldl_cons, List.filter_cons]
    by_cases he : fileExtension f = ""
    · rw [if_pos he]
      have hd : decide (fileExtension f ≠ "") = false := by simp [he]
      rw [hd]
      exact ih acc
    · rw [if_neg he]
      have hd : decide (fileExtension f ≠ "") = true := by simp [he]
      rw [hd]
      refine (ih (addToBucket acc (fileExtension f) f)).trans ?_
      refine List.Perm.append_right _ (flatten_addToBucket acc (fileExtension f) f) |>.trans ?_
      rw [List.append_assoc]
      exact List.Perm.append_left _ (List.Perm.refl _)

theorem flatten_groupFilesByExtension (files : List PRFile) :
    List.Perm ((groupFilesByExtension files).map Prod.snd).flatten
      (files.filter (fun f => decide (fileExtension f ≠ ""))) := by
  have := flatten_bucketFold files []
  simpa using this

theorem flatten_processWithinLimitFiles (fits : List PRFile → Bool)
    (files : List PRFile) :
    List.Perm (processWithinLimitFiles fits files).flatten
      (if fits files = true then files
       else files.filter (fun f => decide (fileExtension f ≠ ""))) := by
  unfold processWithinLimitFiles
  by_cases h : fits files = true
  · rw [if_pos h, if_pos h]
    simp
  · rw [if_neg h, if_neg h]
    have hbuckets : ∀ bs : List (String × List PRFile),
        ((bs.map fun entry =>
          if fits entry.2 = true then [entry.2]
          else greedyGroupAccum fits [] (sortByTokenLength entry.2)).flatten).flatten.Perm
          ((bs.map Prod.snd).flatten) := by
      intro bs
      induction bs with
      | nil => rfl
      | cons e bs ihb =>
        simp only [List.map_cons, List.flatten_cons]
        rw [List.flatten_append]
        refine List.Perm.append ?_ ihb
        by_cases hf : fits e.2 = true
        · rw [if_pos hf]
          simp
        · rw [if_neg hf]
          rw [flatten_greedyGroupAccum fits (sortByTokenLength e.2) []]
          exact List.perm_insertionSort tokenLE e.2
    exact (hbuckets (groupFilesByExtension files)).trans
      (flatten_groupFilesByExtension files)

/-! ## C1: emitted groups stay within the budget -/

theorem processWithinLimitFiles_fits (fits : List PRFile → Bool)
    (files : List PRFile) (hall : ∀ f ∈ files, fits [f] = true) :
    ∀ g ∈ processWithinLimitFiles fits files, fits g = true := by
  intro g hg
  unfold processWithinLimitFiles at hg
  by_cases h : fits files = true
  · rw [if_pos h] at hg
    simp only [List.mem_singleton] at hg
    subst hg
    exact h
  · rw [if_neg h] at hg
    rw [List.mem_flatten] at hg
    obtain ⟨gs, hgs, hgmem⟩ := hg
    rw [List.mem_map] at hgs
    obtain ⟨entry, hentry, hgseq⟩ := hgs
    subst hgseq
    by_cases h2 : fits entry.2 = true
    · rw [if_pos h2] at hgmem
      simp only [List.mem_singleton] at hgmem
      subst hgmem
      exact h2
    · rw [if_neg h2] at hgmem
      refine fits_greedyGroupAccum fits (sortByTokenLength entry.2) []
        (Or.inl rfl) ?_ g hgmem
      intro f hf
      apply hall
      have hf2 : f ∈ entry.2 :=
        (List.perm_insertionSort tokenLE entry.2).subset hf
      have hflat : f ∈ ((groupFilesByExtension files).map Prod.snd).flatten :=
        List.mem_flatten.mpr ⟨entry.2, List.mem_map_of_mem Prod.snd hentry, hf2⟩
      exact List.mem_of_mem_filter ((flatten_groupFilesByExtension files).subset hflat)

theorem processOutsideLimitFiles_fits (fits : List PRFile → Bool)
    (files : List PRFile) :
    ∀ g ∈ processOutsideLimitFiles fits files, fits g = true := by
  intro g hg
  unfold processOutsideLimitFiles at hg
  by_cases h0 : files.isEmpty = true
  · rw [if_pos h0] at hg
    simp at hg
  · rw [if_neg h0] at hg
    dsimp only at hg
    by_cases h1 : fits (files.map stripRemovedLines) = true
    · rw [if_pos h1] at hg
      simp only [List.mem_singleton] at hg
      subst hg
      exact h1
    · rw [if_neg h1] at hg
      refine processWithinLimitFiles_fits fits _ ?_ g hg
      intro f hf
      exact (List.mem_filter.mp hf).2

theorem reviewChangesGroups_fits (fits : List PRFile → Bool)
    (patchTokens : PRFile → Nat) (files : List PRFile) :
    ∀ g ∈ reviewChangesGroups fits patchTokens files, fits g = true := by
  intro g hg
  unfold reviewChangesGroups at hg
  dsimp only at hg
  rw [List.mem_append] at hg
  rcases hg with hg | hg
  · refine processWithinLimitFiles_fits fits _ ?_ g hg
    intro f hf
    exact (List.mem_filter.mp hf).2
  · exact processOutsideLimitFiles_fits fits _ g hg

/-- C1: every group emitted by `processWithinLimitFiles` (whose input files
each fit alone, as established by the classification in `reviewChanges`),
every group emitted by `processOutsideLimitFiles` (including the stripped
Phase B groups), and every group of a whole `reviewChanges` packing run,
satisfies the conversation-limit probe. -/
theorem packerGroups_within_budget :
    (∀ (fits : List PRFile → Bool) (files : List PRFile),
       (∀ f ∈ files, fits [f] = true) →
       ∀ g ∈ processWithinLimitFiles fits files, fits g = true) ∧
    (∀ (fits : List PRFile → Bool) (files : List PRFile),
       ∀ g ∈ processOutsideLimitFiles fits files, fits g = true) ∧
    (∀ (fits : List PRFile → Bool) (patchTokens : PRFile → Nat)
       (files : List PRFile),
       ∀ g ∈ reviewChangesGroups fits patchTokens files, fits g = true) :=
  ⟨processWithinLimitFiles_fits, processOutsideLimitFiles_fits,
    reviewChangesGroups_fits⟩

/-- Witness for C1: the group seeded after a failed probe in the concrete
three-file run satisfies the concrete budget probe. -/
theorem packerGroups_within_budget_witness :
    fitsSmallBudget [exampleFileA, exampleFileB] = true ∧
    fitsSmallBudget [exampleFileC] = true :=
  ⟨packerGroups_within_budget.1 fitsSmallBudget
      [exampleFileA, exampleFileB, exampleFileC] (by decide)
      [exampleFileA, exampleFileB] (by decide),
   packerGroups_within_budget.1 fitsSmallBudget
      [exampleFileA, exampleFileB, exampleFileC] (by decide)
      [exampleFileC] (by decide)⟩

/-! ## C6: stable ascending greedy packing -/

theorem filter_orderedInsert_tok (k : Nat) (a : PRFile) (m : List PRFile) :
    (m.orderedInsert tokenLE a).filter (fun f => decide (f.patchTokenLength = k)) =
      if a.patchTokenLength = k then
        a :: m.filter (fun f => decide (f.patchTokenLength = k))
      else m.filter (fun f => decide (f.patchTokenLength = k)) := by
  induction m with
  | nil =>
    by_cases ha : a.patchTokenLength = k
    · simp [List.orderedInsert, ha]
    · simp [List.orderedInsert, ha]
  | cons b m ih =>
    simp only [List.orderedInsert]
    by_cases hr : tokenLE a b
    · rw [if_pos hr]
      by_cases ha : a.patchTokenLength = k
      · simp [List.filter_cons, ha]
      · simp [List.filter_cons, ha]
    · rw [if_neg hr]
      rw [List.filter_cons, List.filter_cons, ih]
      by_cases ha : a.patchTokenLength = k
      · have hb : b.patchTokenLength ≠ k := by
          intro hbk
          exact hr (show a.patchTokenLength ≤ b.patchTokenLength by rw [ha, hbk])
        simp [ha, hb]
      · simp [ha]

theorem filter_sortByTokenLength (l : List PRFile) (k : Nat) :
    (sortByTokenLength l).filter (fun f => decide (f.patchTokenLength = k)) =
      l.filter (fun f => decide (f.patchTokenLength = k)) := by
  induction l with
  | nil => rfl
  | cons a l ih =>
    show (List.orderedInsert tokenLE a (sortByTokenLength l)).filter _ = _
    rw [filter_orderedInsert_tok]
    by_cases ha : a.patchTokenLength = k
    · rw [if_pos ha, ih, List.filter_cons, if_pos (by simp [ha])]
    · rw [if_neg ha, ih, List.filter_cons, if_neg (by simp [ha])]

/-- C6: on the spec's concrete bucket with token lengths `[5, 5, 10]` and a
budget admitting only the two length-5 files together, the packer emits the
two length-5 files as one group in original order and the length-10 file as
a singleton group; the underlying sort is a stable ascending sort by patch
token length (a permutation, sorted, preserving the relative order of
equal-length files), and the greedy loop partitions the sorted bucket into
consecutive groups. -/
theorem greedyPacking_spec :
    processWithinLimitFiles fitsSmallBudget
        [exampleFileA, exampleFileB, exampleFileC] =
      [[exampleFileA, exampleFileB], [exampleFileC]] ∧
    processWithinLimitFiles fitsSmallBudget
        [exampleFileC, exampleFileA, exampleFileB] =
      [[exampleFileA, exampleFileB], [exampleFileC]] ∧
    (∀ l : List PRFile, List.Perm (sortByTokenLength l) l) ∧
    (∀ l : List PRFile, List.Sorted tokenLE (sortByTokenLength l)) ∧
    (∀ (l : List PRFile) (k : Nat),
      (sortByTokenLength l).filter (fun f => decide (f.patchTokenLength = k)) =
        l.filter (fun f => decide (f.patchTokenLength = k))) ∧
    (∀ (fits : List PRFile → Bool) (currentGroup rest : List PRFile),
      (greedyGroupAccum fits currentGroup rest).flatten = currentGroup ++ rest) :=
  ⟨by decide, by decide, fun l => List.perm_insertionSort tokenLE l,
    fun l => List.sorted_insertionSort tokenLE l, filter_sortByTokenLength,
    fun fits cur rest => flatten_greedyGroupAccum fits rest cur⟩

/-! ## C2: the union of the emitted groups -/

theorem flatten_processWithinLimitFiles_of_ext (fits : List PRFile → Bool)
    (l : List PRFile) (hext : ∀ f ∈ l, fileExtension f ≠ "") :
    List.Perm (processWithinLimitFiles fits l).flatten l := by
  have h := flatten_processWithinLimitFiles fits l
  by_cases hf : fits l = true
  · rw [if_pos hf] at h
    exact h
  · rw [if_neg hf] at h
    rw [List.filter_eq_self.mpr (fun f hfm => decide_eq_true (hext f hfm))] at h
    exact h

theorem flatten_processOutsideLimitFiles_names (fits : List PRFile → Bool)
    (l : List PRFile) (hext : ∀ f ∈ l, fileExtension f ≠ "") :
    List.Perm
      ((processOutsideLimitFiles fits l).flatten.map (fun f => f.filename) ++
        (droppedOversizedFiles fits l).map (fun f => f.filename))
      (l.map (fun f => f.filename)) := by
  unfold processOutsideLimitFiles droppedOversizedFiles
  by_cases h0 : l.isEmpty = true
  · rw [if_pos h0, if_pos h0]
    simp [List.isEmpty_iff.mp h0]
  · rw [if_neg h0, if_neg h0]
    dsimp only
    by_cases h1 : fits (l.map stripRemovedLines) = true
    · rw [if_pos h1, if_pos h1]
      simp only [List.flatten_cons, List.flatten_nil, List.append_nil,
        List.map_nil, List.map_map]
      exact List.Perm.refl _
    · rw [if_neg h1, if_neg h1]
      have hext' : ∀ f ∈ (l.map stripRemovedLines).filter (fun f => fits [f]),
          fileExtension f ≠ "" := by
        intro f hf
        have hf2 := List.mem_of_mem_filter hf
        rcases List.mem_map.mp hf2 with ⟨f0, hf0, heq⟩
        rw [← heq]
        exact hext f0 hf0
      have hperm := flatten_processWithinLimitFiles_of_ext fits
        ((l.map stripRemovedLines).filter (fun f => fits [f])) hext'
      refine (List.Perm.append_right _ (List.Perm.map _ hperm)).trans ?_
      rw [← List.map_append]
      refine (List.Perm.map _ (List.filter_append_perm _
        (l.map stripRemovedLines))).trans ?_
      rw [List.map_map]
      exact List.Perm.refl _

/-- C2 (amended): when every filtered input file has a non-empty extension
key, the filenames of the emitted groups together with the filenames of the
Phase B files dropped as still oversized are a permutation of the filtered
input filenames (so the union of the groups is the filtered input minus
exactly the dropped files, with no file in more than one group). -/
theorem reviewChangesGroups_union (fits : List PRFile → Bool)
    (patchTokens : PRFile → Nat) (files : List PRFile)
    (hext : ∀ f ∈ files.filter filterFile, fileExtension f ≠ "") :
    List.Perm
      ((reviewChangesGroups fits patchTokens files).flatten.map
          (fun f => f.filename) ++
        (reviewChangesDropped fits patchTokens files).map (fun f => f.filename))
      ((files.filter filterFile).map (fun f => f.filename)) := by
  unfold reviewChangesGroups reviewChangesDropped
  dsimp only
  rw [List.flatten_append, List.map_append, List.append_assoc]
  have hextUpd : ∀ f ∈ (files.filter filterFile).map
      (fun f => { f with patchTokenLength := patchTokens f }),
      fileExtension f ≠ "" := by
    intro f hf
    rcases List.mem_map.mp hf with ⟨f0, hf0, heq⟩
    rw [← heq]
    exact hext f0 hf0
  have h1 := flatten_processWithinLimitFiles_of_ext fits
    (((files.filter filterFile).map
        (fun f => { f with patchTokenLength := patchTokens f })).filter
      (fun f => fits [f]))
    (fun f hf => hextUpd f (List.mem_of_mem_filter hf))
  have h2 := flatten_processOutsideLimitFiles_names fits
    (((files.filter filterFile).map
        (fun f => { f with patchTokenLength := patchTokens f })).filter
      (fun f => !fits [f]))
    (fun f hf => hextUpd f (List.mem_of_mem_filter hf))
  refine (List.Perm.append (List.Perm.map _ h1) h2).trans ?_
  rw [← List.map_append]
  refine (List.Perm.map _ (List.filter_append_perm _ _)).trans ?_
  rw [List.map_map]
  exact List.Perm.refl _

/-- Witness for C2 (amended) at a concrete three-file run with ordinary
extensions: the emitted filenames cover the filtered input exactly. -/
theorem reviewChangesGroups_union_witness :
    List.Perm
      ((reviewChangesGroups fitsSmallBudget (fun f => f.patchTokenLength)
          [exampleFileA, exampleFileB, exampleFileC]).flatten.map
          (fun f => f.filename) ++
        (reviewChangesDropped fitsSmallBudget (fun f => f.patchTokenLength)
          [exampleFileA, exampleFileB, exampleFileC]).map (fun f => f.filename))
      (([exampleFileA, exampleFileB, exampleFileC].filter filterFile).map
        (fun f => f.filename)) :=
  reviewChangesGroups_union fitsSmallBudget (fun f => f.patchTokenLength)
    [exampleFileA, exampleFileB, exampleFileC] (by decide)

/-- C2 counterexample: with a file named `"foo."` (accepted by the filter
but bucketed under the empty extension key) and a probe under which the two
files do not fit together, the run silently loses `"foo."`: the union of the
emitted groups plus the dropped files is not a permutation of the filtered
input, refuting the claim as stated. -/
theorem reviewChangesGroups_union_counterexample :
    ¬ List.Perm
      ((reviewChangesGroups fitsPairBudget (fun _ => 0)
          [exampleFileD, exampleFileDot]).flatten.map (fun f => f.filename) ++
        (reviewChangesDropped fitsPairBudget (fun _ => 0)
          [exampleFileD, exampleFileDot]).map (fun f => f.filename))
      (([exampleFileD, exampleFileDot].filter filterFile).map
        (fun f => f.filename)) := by
  decide

/-! ## C7: the inline-fix novelty check -/

/-- C7: when the model's returned code, after re-indentation, trims to the
same text as the trimmed existing lines `[lineStart, lineEnd]` of the file's
current contents, `generateInlineComments` returns no fix. -/
theorem generateInlineComments_redundant
    (chatResult : Except String (Option String))
    (parseArgs : String → Except String InlineFixArgs)
    (suggestion : PRSuggestion) (file : PRFile) (rawArgs : String)
    (args : InlineFixArgs) (contents indented : String)
    (hchat : chatResult = Except.ok (some rawArgs))
    (hparse : parseArgs rawArgs = Except.ok args)
    (hcontents : file.current_contents = some contents)
    (hindent : indentCodeFix contents args.code args.lineStart =
      Except.ok indented)
    (htrim : jsTrim (jsJoin '\n' (jsSliceList (jsSplit '\n' contents)
        (args.lineStart - 1) args.lineEnd)) = jsTrim indented) :
    generateInlineComments chatResult parseArgs suggestion file = none := by
  have hnew : isCodeSuggestionNew contents
      { file := suggestion.filename
        line_start := args.lineStart
        line_end := args.lineEnd
        correction := indented
        comment := args.comment } = false := by
    unfold isCodeSuggestionNew
    dsimp only
    rw [if_pos htrim]
  have hbody : generateInlineCommentsBody chatResult parseArgs suggestion file =
      Except.ok none := by
    unfold generateInlineCommentsBody
    rw [hchat]
    dsimp only
    rw [hparse]
    dsimp only
    rw [hcontents]
    dsimp only
    rw [hindent]
    dsimp only
    rw [hnew]
    rfl
  unfold generateInlineComments
  rw [hbody]

/-- Witness for C7 at the spec's concrete example: current content
`"def f():\n    pass\n"`, a replacement `"pass"` for lines 2-2, no fix. -/
theorem generateInlineComments_redundant_witness :
    generateInlineComments (Except.ok (some "argsblob"))
      (fun _ => Except.ok ⟨"pass", 2, 2, "use pass"⟩)
      exampleSuggestion exampleFilePy = none :=
  generateInlineComments_redundant (Except.ok (some "argsblob"))
    (fun _ => Except.ok ⟨"pass", 2, 2, "use pass"⟩)
    exampleSuggestion exampleFilePy "argsblob" ⟨"pass", 2, 2, "use pass"⟩
    "def f():\n    pass\n" "    pass" rfl rfl rfl (by rfl) (by decide)

/-! ## C8: inline-fix generation never propagates an exception -/

/-- C8: every failure of the inline-fix pipeline (model failure, absent
function call, argument parsing, null contents, out-of-range re-indentation)
is caught and converted to a null result, and a fix is returned only when the
whole pipeline succeeded with that fix. -/
theorem generateInlineComments_total :
    (∀ (chatResult : Except String (Option String))
       (parseArgs : String → Except String InlineFixArgs)
       (suggestion : PRSuggestion) (file : PRFile) (e : String),
       generateInlineCommentsBody chatResult parseArgs suggestion file =
         Except.error e →
       generateInlineComments chatResult parseArgs suggestion file = none) ∧
    (∀ (chatResult : Except String (Option String))
       (parseArgs : String → Except String InlineFixArgs)
       (suggestion : PRSuggestion) (file : PRFile),
       generateInlineComments chatResult parseArgs suggestion file = none ∨
       ∃ fix, generateInlineComments chatResult parseArgs suggestion file =
           some fix ∧
         generateInlineCommentsBody chatResult parseArgs suggestion file =
           Except.ok (some fix)) := by
  constructor
  · intro chatResult parseArgs suggestion file e h
    unfold generateInlineComments
    rw [h]
  · intro chatResult parseArgs suggestion file
    unfold generateInlineComments
    cases h : generateInlineCommentsBody chatResult parseArgs suggestion file with
    | error e => exact Or.inl rfl
    | ok v =>
      cases v with
      | none => exact Or.inl rfl
      | some fix => exact Or.inr ⟨fix, rfl, rfl⟩

/-- Witness for C8: a run whose model response carries no function call is
suppressed to a null result. -/
theorem generateInlineComments_total_witness :
    generateInlineComments (Except.ok none)
      (fun _ => Except.error "parse error") exampleSuggestion exampleFilePy =
      none :=
  generateInlineComments_total.1 (Except.ok none)
    (fun _ => Except.error "parse error") exampleSuggestion exampleFilePy
    "No function call found" (by rfl)

/-! ## C10: lemmas about lines, trimming and reversal -/

theorem splitOnChar_cons (sep c : Char) (cs : List Char) :
    splitOnChar sep (c :: cs) =
      if c = sep then [] :: splitOnChar sep cs
      else (splitOnChar sep cs).modifyHead (List.cons c) := by
  unfold splitOnChar List.splitOn
  rw [List.splitOnP_cons]
  by_cases hc : c = sep
  · rw [if_pos (by simp [hc]), if_pos hc]
  · rw [if_neg (by simp [hc]), if_neg hc]

theorem splitOnChar_concat (sep : Char) (xs : List Char) (c : Char) :
    splitOnChar sep (xs ++ [c]) =
      if c = sep then splitOnChar sep xs ++ [[]]
      else (splitOnChar sep xs).dropLast ++
        [(splitOnChar sep xs).getLastD [] ++ [c]] := by
  induction xs with
  | nil =>
    show splitOnChar sep [c] = _
    rw [splitOnChar_cons]
    by_cases hc : c = sep
    · rw [if_pos hc, if_pos hc]
      rfl
    · rw [if_neg hc, if_neg hc]
      rfl
  | cons x xs ih =>
    show splitOnChar sep (x :: (xs ++ [c])) = _
    rw [splitOnChar_cons, ih, splitOnChar_cons]
    by_cases hc : c = sep
    · rw [if_pos hc, if_pos hc]
      by_cases hx : x = sep
      · rw [if_pos hx, if_pos hx]
        rfl
      · rw [if_neg hx, if_neg hx]
        obtain ⟨h, t, hsplit⟩ : ∃ h t, splitOnChar sep xs = h :: t := by
          cases hs : splitOnChar sep xs with
          | nil => exact absurd hs (splitOnChar_ne_nil sep xs)
          | cons h t => exact ⟨h, t, rfl⟩
        rw [hsplit]
        rfl
    · rw [if_neg hc, if_neg hc]
      obtain ⟨h, t, hsplit⟩ : ∃ h t, splitOnChar sep xs = h :: t := by
        cases hs : splitOnChar sep xs with
        | nil => exact absurd hs (splitOnChar_ne_nil sep xs)
        | cons h t => exact ⟨h, t, rfl⟩
      rw [hsplit]
      by_cases hx : x = sep
      · rw [if_pos hx, if_pos hx]
        cases t with
        | nil => rfl
        | cons t0 ts => rfl
      · rw [if_neg hx, if_neg hx]
        cases t with
        | nil => rfl
        | cons t0 ts => rfl

theorem splitOnChar_reverse (sep : Char) (cs : List Char) :
    splitOnChar sep cs.reverse = ((splitOnChar sep cs).map List.reverse).reverse := by
  induction cs with
  | nil => rfl
  | cons c cs ih =>
    rw [List.reverse_cons, splitOnChar_concat, splitOnChar_cons, ih]
    by_cases hc : c = sep
    · rw [if_pos hc, if_pos hc]
      simp
    · rw [if_neg hc, if_neg hc]
      obtain ⟨h, t, hsplit⟩ : ∃ h t, splitOnChar sep cs = h :: t := by
        cases hs : splitOnChar sep cs with
        | nil => exact absurd hs (splitOnChar_ne_nil sep cs)
        | cons h t => exact ⟨h, t, rfl⟩
      rw [hsplit]
      simp only [List.map_cons, List.modifyHead_cons, List.reverse_cons]
      rw [List.dropLast_concat, List.getLastD_concat]

theorem tail_modifyHead {α : Type} (f : α → α) (l : List α) :
    (l.modifyHead f).tail = l.tail := by
  cases l with
  | nil => rfl
  | cons a l => rfl

theorem tail_lines_dropWhile (cs : List Char) :
    List.IsSuffix (splitOnChar '\n' (cs.dropWhile isJsWhitespace)).tail
      (splitOnChar '\n' cs).tail := by
  induction cs with
  | nil => exact List.suffix_refl _
  | cons c cs ih =>
    rw [List.dropWhile_cons]
    by_cases hw : isJsWhitespace c = true
    · rw [if_pos hw]
      by_cases hn : c = '\n'
      · rw [splitOnChar_cons, if_pos hn]
        exact ih.trans (List.tail_suffix _)
      · rw [splitOnChar_cons, if_neg hn, tail_modifyHead]
        exact ih
    · rw [if_neg hw]

theorem tail_isPrefix_of_isPrefix {α : Type} {p q : List α} (h : List.IsPrefix p q) :
    List.IsPrefix p.tail q.tail := by
  cases p with
  | nil => exact List.nil_prefix
  | cons a p =>
    obtain ⟨r, hr⟩ := h
    cases q with
    | nil => exact absurd hr (List.cons_ne_nil _ _)
    | cons b q =>
      rw [List.cons_append] at hr
      injection hr with h1 h2
      exact ⟨r, h2⟩

theorem reverse_reverse_map (l : List (List Char)) :
    (l.map List.reverse).map List.reverse = l := by
  rw [List.map_map]
  have h : (List.reverse ∘ List.reverse : List Char → List Char) = id := by
    funext x
    exact List.reverse_reverse x
  rw [h, List.map_id]

theorem dropLast_lines_trimEnd (x : List Char) :
    List.IsPrefix
      (splitOnChar '\n' ((x.reverse.dropWhile isJsWhitespace).reverse)).dropLast
      ((splitOnChar '\n' x).dropLast) := by
  have hA := tail_lines_dropWhile x.reverse
  rw [splitOnChar_reverse '\n' x] at hA
  rw [List.tail_reverse_eq_reverse_dropLast] at hA
  have hA2 : List.IsPrefix
      ((splitOnChar '\n' (x.reverse.dropWhile isJsWhitespace)).tail.reverse.map
        List.reverse)
      ((splitOnChar '\n' x).dropLast) := by
    have h1 := List.reverse_prefix.mpr hA
    rw [List.reverse_reverse] at h1
    have h2 := List.IsPrefix.map List.reverse h1
    rw [← List.map_dropLast, reverse_reverse_map] at h2
    exact h2
  have hEq : (splitOnChar '\n'
      ((x.reverse.dropWhile isJsWhitespace).reverse)).dropLast =
      (splitOnChar '\n' (x.reverse.dropWhile isJsWhitespace)).tail.reverse.map
        List.reverse := by
    rw [splitOnChar_reverse '\n' (x.reverse.dropWhile isJsWhitespace)]
    rw [← List.map_reverse]
    rw [← List.map_dropLast]
    congr 1
    have h5 := List.tail_reverse_eq_reverse_dropLast
      (splitOnChar '\n' (x.reverse.dropWhile isJsWhitespace)).reverse
    rw [List.reverse_reverse] at h5
    rw [h5, List.reverse_reverse]
  rw [hEq]
  exact hA2

theorem interior_lines_trim (cs : List Char) :
    List.IsInfix ((splitOnChar '\n' (jsTrimChars cs)).dropLast.tail)
      (splitOnChar '\n' cs) := by
  rw [List.tail_dropLast]
  have hB := dropLast_lines_trimEnd (cs.dropWhile isJsWhitespace)
  have h1 := tail_isPrefix_of_isPrefix hB
  rw [List.tail_dropLast, List.tail_dropLast] at h1
  have h2 := tail_lines_dropWhile cs
  have h3 : List.IsInfix
      ((splitOnChar '\n' (cs.dropWhile isJsWhitespace)).tail.dropLast)
      ((splitOnChar '\n' cs).tail) :=
    List.infix_iff_prefix_suffix.mpr
      ⟨(splitOnChar '\n' (cs.dropWhile isJsWhitespace)).tail,
        List.dropLast_prefix _, h2⟩
  unfold jsTrimChars
  exact ( List.IsPrefix.isInfix h1).trans
    (h3.trans ( List.IsSuffix.isInfix (List.tail_suffix _)))

theorem mem_of_mem_jsTrimChars {x : Char} {cs : List Char}
    (h : x ∈ jsTrimChars cs) : x ∈ cs := by
  unfold jsTrimChars at h
  rw [List.mem_reverse] at h
  have h2 := (List.dropWhile_sublist _).subset h
  rw [List.mem_reverse] at h2
  exact (List.dropWhile_sublist _).subset h2

theorem not_mem_trimFirstLine {c : Char} {m : List (List Char)}
    (h : ∀ l ∈ m, c ∉ l) : ∀ l ∈ trimFirstLine m, c ∉ l := by
  intro l hl
  cases m with
  | nil => simp [trimFirstLine] at hl
  | cons a m =>
    simp only [trimFirstLine, List.mem_cons] at hl
    rcases hl with h1 | h1
    · subst h1
      intro hmem
      exact h a (List.mem_cons_self _ _) (mem_of_mem_jsTrimChars hmem)
    · exact h l (List.mem_cons_of_mem _ h1)

theorem not_mem_trimLastLine {c : Char} {m : List (List Char)}
    (h : ∀ l ∈ m, c ∉ l) : ∀ l ∈ trimLastLine m, c ∉ l := by
  intro l hl
  unfold trimLastLine at hl
  rw [List.mem_reverse] at hl
  exact not_mem_trimFirstLine (fun u hu => h u (List.mem_reverse.mp hu)) l hl

theorem length_trimFirstLine (m : List (List Char)) :
    (trimFirstLine m).length = m.length := by
  cases m with
  | nil => rfl
  | cons a m => rfl

theorem length_trimLastLine (m : List (List Char)) :
    (trimLastLine m).length = m.length := by
  unfold trimLastLine
  rw [List.length_reverse, length_trimFirstLine, List.length_reverse]

theorem tail_trimFirstLine (m : List (List Char)) :
    (trimFirstLine m).tail = m.tail := by
  cases m with
  | nil => rfl
  | cons a m => rfl

theorem dropLast_trimFirstLine (m : List (List Char)) :
    (trimFirstLine m).dropLast = trimFirstLine m.dropLast := by
  cases m with
  | nil => rfl
  | cons a m =>
    cases m with
    | nil => rfl
    | cons b m => rfl

theorem dropLast_trimLastLine (m : List (List Char)) :
    (trimLastLine m).dropLast = m.dropLast := by
  unfold trimLastLine
  have h1 := List.tail_reverse_eq_reverse_dropLast
    (trimFirstLine m.reverse).reverse
  rw [List.reverse_reverse] at h1
  rw [tail_trimFirstLine] at h1
  rw [List.tail_reverse_eq_reverse_dropLast m] at h1
  have h2 := congrArg List.reverse h1
  rw [List.reverse_reverse, List.reverse_reverse] at h2
  exact h2.symm

theorem interior_convLines (m : List (List Char)) :
    (trimLastLine (trimFirstLine m)).dropLast.tail = m.dropLast.tail := by
  rw [dropLast_trimLastLine, dropLast_trimFirstLine, tail_trimFirstLine]

theorem lines_convertSuggestionCode (s : String) :
    splitOnChar '\n' (convertSuggestionCode s).data =
      trimLastLine (trimFirstLine (splitOnChar '\n' (jsTrimChars s.data))) := by
  show splitOnChar '\n' (joinChar '\n' _) = _
  apply splitOnChar_joinChar
  · apply not_mem_trimLastLine
    apply not_mem_trimFirstLine
    exact sep_not_mem_of_mem_splitOnChar '\n' (jsTrimChars s.data)
  · intro hnil
    have hlen := congrArg List.length hnil
    rw [length_trimLastLine, length_trimFirstLine] at hlen
    simp only [List.length_nil] at hlen
    exact splitOnChar_ne_nil '\n' (jsTrimChars s.data)
      (List.length_eq_zero.mp hlen)

/-- C10 counterexample: the conversion does not trim only the first and last
lines of the code block.  The whole-block trim of line 233 alters an interior
line of the input block: for the block `"a\nb  \n"` the interior input line
is `"b  "`, yet the resulting code field is `"a\nb"`, among whose lines
`"b  "` does not occur — its trailing whitespace is not preserved. -/
theorem processXMLSuggestions_code_counterexample :
    (rawToPRSuggestion ⟨"d", "t", "c", "a\nb  \n", "f"⟩).code = "a\nb" ∧
    (splitOnChar '\n' ("a\nb  \n" : String).data).dropLast.tail =
      [['b', ' ', ' ']] ∧
    ['b', ' ', ' '] ∉
      splitOnChar '\n' (rawToPRSuggestion ⟨"d", "t", "c", "a\nb  \n", "f"⟩).code.data := by
  refine ⟨by decide, by decide, by decide⟩

/-- C10 (amended): converting a raw record first trims the whole code block
and then only the first and last lines of the trimmed block; every line that
remains interior after the whole-block trim is preserved verbatim (whitespace
and indentation untouched), and those interior lines occur verbatim and
contiguously among the lines of the original code block. -/
theorem processXMLSuggestions_code_spec :
    (∀ raw : RawSuggestion,
      splitOnChar '\n' (rawToPRSuggestion raw).code.data =
        trimLastLine (trimFirstLine
          (splitOnChar '\n' (jsTrimChars raw.code.data)))) ∧
    (∀ raw : RawSuggestion,
      (splitOnChar '\n' (rawToPRSuggestion raw).code.data).dropLast.tail =
        (splitOnChar '\n' (jsTrimChars raw.code.data)).dropLast.tail) ∧
    (∀ raw : RawSuggestion,
      List.IsInfix
        ((splitOnChar '\n' (rawToPRSuggestion raw).code.data).dropLast.tail)
        (splitOnChar '\n' raw.code.data)) ∧
    convertSuggestionCode "x\n  mid  \ny" = "x\n  mid  \ny" := by
  have hlines : ∀ raw : RawSuggestion,
      splitOnChar '\n' (rawToPRSuggestion raw).code.data =
        trimLastLine (trimFirstLine
          (splitOnChar '\n' (jsTrimChars raw.code.data))) :=
    fun raw => lines_convertSuggestionCode raw.code
  refine ⟨hlines, ?_, ?_, by decide⟩
  · intro raw
    rw [hlines raw, interior_convLines]
  · intro raw
    rw [hlines raw, interior_convLines]
    exact interior_lines_trim raw.code.data

end CRAgent
